import Mathlib

/-!
Shallow embedding of the accounting core of the investment-tracker scripts
(`src/generate_investment_portfolio.py` and
`src/generate_sell_transaction_analysis.py`), together with theorems settling
the frozen claims about the FIFO lot ledger, the currency converter, the sell
analyzer and the monthly performance series.

Python numbers are modelled as exact rationals (`ℚ`); Python dictionaries
keyed by symbol are modelled as total functions with the defaultdict default;
`None`-able values are modelled with `Option`.
-/

namespace InvestmentTracker

/-- Model of Python `str.lower()` (ASCII), used as `transaction['type'].lower()`
in `process_transactions` and `analyze_sell_transactions`. -/
def pyLower (s : String) : String := String.mk (s.data.map Char.toLower)

/-- A transaction record, the canonical fields read by the two scripts:
`symbol`, `type`, `shares`, `price`, `date`, `name`, `currency`, plus the
`account` tag added in `analyze_sell_transactions` and the optional `fee`
(`transaction.get('fee', 0)`). -/
structure Txn where
  symbol : String
  type : String
  shares : ℚ
  price : ℚ
  date : String
  name : String
  currency : String
  account : String
  fee : ℚ
deriving DecidableEq

/-- A FIFO purchase lot `(shares, price, date)` as stored in
`holdings_dict[symbol]['lots']` (generate_investment_portfolio.py line 364). -/
structure Lot where
  shares : ℚ
  price : ℚ
  date : String
deriving DecidableEq

/-- The per-symbol holdings entry of the defaultdict in
`load_portfolio_data` (lines 362-370 / 378-386): name, FIFO lots queue and
the recomputed totals. The `sector` field is never touched by the
transaction-processing code and is omitted. -/
structure SymbolData where
  name : String
  lots : List Lot
  total_shares : ℚ
  weighted_avg_cost : ℚ
  total_cost : ℚ
  currency : String
deriving DecidableEq

/-- The defaultdict default entry (lines 362-370). -/
def emptySymbolData : SymbolData :=
  { name := "", lots := [], total_shares := 0, weighted_avg_cost := 0,
    total_cost := 0, currency := "$" }

/-- A holdings dictionary, modelled as a total function with the defaultdict
default for absent keys. -/
abbrev Holdings := String → SymbolData

def emptyHoldings : Holdings := fun _ => emptySymbolData

/-- Dictionary assignment `holdings_dict[symbol] = sd`. -/
def updateH (h : Holdings) (s : String) (sd : SymbolData) : Holdings :=
  fun x => if x = s then sd else h x

/-- `total_shares` accumulation of `calculate_totals` (lines 390-394). -/
def lotsShares (lots : List Lot) : ℚ := (lots.map Lot.shares).sum

/-- `total_cost` accumulation of `calculate_totals` (lines 391-395). -/
def lotsCost (lots : List Lot) : ℚ := (lots.map (fun l => l.shares * l.price)).sum

/-- `calculate_totals` (generate_investment_portfolio.py lines 388-399):
recompute `total_shares`, `total_cost` and `weighted_avg_cost` from the
surviving lots. -/
def calculate_totals (sd : SymbolData) : SymbolData :=
  let ts := lotsShares sd.lots
  let tc := lotsCost sd.lots
  { sd with total_shares := ts, total_cost := tc,
            weighted_avg_cost := if ts > 0 then tc / ts else 0 }

/-- The sell loop of `process_transactions` (lines 419-433):
`while remaining_to_sell > 0 and lots:` pop the head lot entirely when its
shares are ≤ the remaining amount, otherwise shrink it in place keeping its
price and date. When the queue empties with shares still remaining the loop
just ends (no error is raised). -/
def sellFromLots (remaining : ℚ) : List Lot → List Lot
  | [] => []
  | l :: rest =>
    if remaining ≤ 0 then l :: rest
    else if l.shares ≤ remaining then sellFromLots (remaining - l.shares) rest
    else { l with shares := l.shares - remaining } :: rest

/-- One iteration of the `for transaction in transactions_list` loop of
`process_transactions` (lines 401-436): buys append a lot at the tail, sells
drain from the head, dividends leave the lots alone; afterwards
`calculate_totals` is re-run for the touched symbol. -/
def applyTxn (h : Holdings) (t : Txn) : Holdings :=
  let sd := h t.symbol
  let sd1 :=
    if pyLower t.type = "buy" then
      { sd with lots := sd.lots ++ [⟨t.shares, t.price, t.date⟩],
                name := t.name, currency := t.currency }
    else if pyLower t.type = "sell" then
      { sd with lots := sellFromLots t.shares sd.lots }
    else sd
  updateH h t.symbol (calculate_totals sd1)

/-- `process_transactions` (lines 401-439) before the final pruning of
holdings with non-positive `total_shares`: fold the per-transaction step over
the (already date-sorted) transaction list. -/
def process_transactions (h : Holdings) (ts : List Txn) : Holdings :=
  ts.foldl applyTxn h

/-- Total shares bought for a symbol in a transaction list. -/
def boughtShares (s : String) (ts : List Txn) : ℚ :=
  ((ts.filter (fun t => t.symbol = s ∧ pyLower t.type = "buy")).map Txn.shares).sum

/-- Total shares sold for a symbol in a transaction list. -/
def soldShares (s : String) (ts : List Txn) : ℚ :=
  ((ts.filter (fun t => t.symbol = s ∧ pyLower t.type = "sell")).map Txn.shares).sum

/-- Decides whether every Sell in the list is covered by the shares of its
symbol held at that moment of the replay. -/
def sellsCoveredB (h : Holdings) : List Txn → Bool
  | [] => true
  | t :: ts =>
    (if pyLower t.type = "sell" then decide (t.shares ≤ lotsShares ((h t.symbol).lots)) else true)
      && sellsCoveredB (applyTxn h t) ts

/- ### Date keys, modelling `datetime.strptime(date, "%d-%m-%Y")` ordering -/

/-- Split a character list on the dash character. -/
def splitDash : List Char → List (List Char)
  | [] => [[]]
  | c :: rest =>
    let r := splitDash rest
    if c = '-' then [] :: r
    else
      match r with
      | [] => [[c]]
      | g :: gs => (c :: g) :: gs

/-- Parse a nonempty digit string into a natural number. -/
def digitsToNat (cs : List Char) : Option Nat :=
  if cs = [] then none
  else
    cs.foldl
      (fun acc c =>
        match acc with
        | none => none
        | some n => if c.isDigit then some (n * 10 + (c.toNat - 48)) else none)
      (some 0)

/-- Parse a `"dd-mm-yyyy"` date string into `(year, month, day)`. -/
def parseDMY (s : String) : Option (Nat × Nat × Nat) :=
  match splitDash s.data with
  | [d, m, y] =>
    match digitsToNat d, digitsToNat m, digitsToNat y with
    | some dd, some mm, some yy => some (yy, mm, dd)
    | _, _, _ => none
  | _ => none

/-- A sortable key for `"dd-mm-yyyy"` dates: `yyyy*10000 + mm*100 + dd`
(0 for an unparsable date), so that key order is the chronological order used
by the scripts' `datetime.strptime(x['date'], "%d-%m-%Y")` sort key. -/
def dateKeyNat (s : String) : Nat :=
  match parseDMY s with
  | some (y, m, d) => y * 10000 + m * 100 + d
  | none => 0

/- ### Sell transaction analyzer (generate_sell_transaction_analysis.py) -/

/-- A buy lot of the analyzer: `(shares, price, date, account)`
(analyze_sell_transactions line 53). -/
structure BLot where
  shares : ℚ
  price : ℚ
  date : String
  account : String
deriving DecidableEq

/-- One entry of `sell_analysis_results` (lines 110-124). -/
structure SellRecord where
  symbol : String
  sell_date : String
  account : String
  shares_sold : ℚ
  sell_price : ℚ
  gross_proceeds : ℚ
  fees : ℚ
  net_proceeds : ℚ
  weighted_avg_cost : ℚ
  total_cost_basis : ℚ
  realized_pnl : ℚ
  realized_pnl_pct : ℚ
  currency : String
deriving DecidableEq

/-- The sell loop of `analyze_sell_transactions` (lines 78-98).  In the source
a `temp_queue` copy is drained while `buy_queue` is popped or updated in step
with it, so the two queues stay equal throughout; the net effect is a single
FIFO drain that also accumulates the consumed cost basis (`total_cost_basis`)
and share count (`shares_processed`).  Returns
(remaining queue, total_cost_basis, shares_processed). -/
def fifoSell (remaining : ℚ) (lots : List BLot) (cb sp : ℚ) : List BLot × ℚ × ℚ :=
  match lots with
  | [] => ([], cb, sp)
  | l :: rest =>
    if remaining ≤ 0 then (l :: rest, cb, sp)
    else if l.shares ≤ remaining then
      fifoSell (remaining - l.shares) rest (cb + l.shares * l.price) (sp + l.shares)
    else
      ({ l with shares := l.shares - remaining } :: rest,
       cb + remaining * l.price, remaining)

/-- The analysis record appended for one Sell transaction against the queue
`q` (lines 100-124): drained cost basis, gross/net proceeds and realized
P&L. -/
def sellRecordOf (q : List BLot) (t : Txn) : SellRecord :=
  let res := fifoSell t.shares q 0 0
  let total_cost_basis := res.2.1
  let shares_processed := res.2.2
  let wac := if shares_processed > 0 then total_cost_basis / shares_processed else 0
  let gross_proceeds := t.shares * t.price
  let net_proceeds := gross_proceeds - t.fee
  let realized_pnl := net_proceeds - total_cost_basis
  let realized_pnl_pct := if total_cost_basis > 0 then realized_pnl / total_cost_basis * 100 else 0
  ⟨t.symbol, t.date, t.account, t.shares, t.price, gross_proceeds, t.fee,
   net_proceeds, wac, total_cost_basis, realized_pnl, realized_pnl_pct, t.currency⟩

/-- One iteration of the per-symbol transaction loop of
`analyze_sell_transactions` (lines 56-124) on the state
(buy queue, records so far): a Buy appends a lot, a Sell drains the queue and
appends exactly one analysis record, anything else is ignored. -/
def analyzeStep (st : List BLot × List SellRecord) (t : Txn) : List BLot × List SellRecord :=
  if pyLower t.type = "buy" then
    (st.1 ++ [⟨t.shares, t.price, t.date, t.account⟩], st.2)
  else if pyLower t.type = "sell" then
    ((fifoSell t.shares st.1 0 0).1, st.2 ++ [sellRecordOf st.1 t])
  else st

/-- The records produced for one symbol's transaction list (lines 52-124),
starting from an empty FIFO queue. -/
def analyzeSymbolTxns (txns : List Txn) : List SellRecord :=
  (txns.foldl analyzeStep ([], [])).2

/-- Insertion order of the keys of `symbol_transactions` (lines 42-47): the
symbols in order of first appearance in the (date-sorted) stream. -/
def symbolsInOrder (txns : List Txn) : List String :=
  txns.foldl (fun acc t => if t.symbol ∈ acc then acc else acc ++ [t.symbol]) []

/-- Concatenation of the per-symbol record lists, in symbol-key order, as the
`for symbol, transactions in symbol_transactions.items()` loop appends into
the single `sell_analysis_results` list. -/
def concatMapRecords (keys : List String) (f : String → List SellRecord) : List SellRecord :=
  match keys with
  | [] => []
  | k :: ks => f k ++ concatMapRecords ks f

/-- `analyze_sell_transactions` (lines 23-126) on an already date-sorted
transaction stream: group by symbol in first-appearance order and analyze each
group with its own FIFO queue. -/
def analyze_sell_transactions (txns : List Txn) : List SellRecord :=
  concatMapRecords (symbolsInOrder txns)
    (fun s => analyzeSymbolTxns (txns.filter (fun t => t.symbol = s)))

/-- The optional fields added by `calculate_unrealized_pnl`
(generate_sell_transaction_analysis.py lines 150-188). -/
structure UnrealizedInfo where
  current_price : Option ℚ
  current_market_value : Option ℚ
  current_net_proceeds : Option ℚ
  unrealized_pnl : Option ℚ
  unrealized_pnl_pct : Option ℚ
  opportunity_difference : Option ℚ
deriving DecidableEq

/-- `calculate_unrealized_pnl` for one record (lines 152-188):
`current_prices.get(symbol)` absent leaves every field `None`; otherwise the
hypothetical sale at the current price with the same fee is computed and
`opportunity_difference = unrealized_pnl - realized_pnl`. -/
def calculate_unrealized_pnl (r : SellRecord) (current_prices : String → Option ℚ) :
    UnrealizedInfo :=
  match current_prices r.symbol with
  | some current_price =>
    let current_market_value := r.shares_sold * current_price
    let current_net_proceeds := current_market_value - r.fees
    let unrealized_pnl := current_net_proceeds - r.total_cost_basis
    let unrealized_pnl_pct :=
      if r.total_cost_basis > 0 then unrealized_pnl / r.total_cost_basis * 100 else 0
    { current_price := some current_price,
      current_market_value := some current_market_value,
      current_net_proceeds := some current_net_proceeds,
      unrealized_pnl := some unrealized_pnl,
      unrealized_pnl_pct := some unrealized_pnl_pct,
      opportunity_difference := some (unrealized_pnl - r.realized_pnl) }
  | none =>
    { current_price := none, current_market_value := none,
      current_net_proceeds := none, unrealized_pnl := none,
      unrealized_pnl_pct := none, opportunity_difference := none }

/- ### Currency converter (generate_investment_portfolio.py lines 232-280) -/

/-- The symbol→code table of `convert_to_usd` / `convert_to_eur`
(lines 238-244 / 262-268). -/
def currency_map : List (String × String) :=
  [("$", "USD"), ("€", "EUR"), ("RON", "RON"), ("£", "GBP"), ("¥", "JPY")]

/-- `currency_map.get(from_currency, from_currency)`. -/
def lookupCode (c : String) : String :=
  ((currency_map.find? (fun p => p.1 = c)).map Prod.snd).getD c

/-- `table.get(code, 1.0)`: rate lookup with identity fallback. -/
def rateLookup (table : List (String × ℚ)) (code : String) : ℚ :=
  ((table.find? (fun p => p.1 = code)).map Prod.snd).getD 1

/-- The two anchor tables: the USD-anchored rates of the `exchange_rates`
dict and the EUR-anchored rates stored under its `EUR_RATES` key. -/
structure ExchangeRates where
  usd_rates : List (String × ℚ)
  eur_rates : List (String × ℚ)

/-- `convert_to_usd` (lines 232-254): 0 for a falsy amount, identity for USD,
otherwise multiply by the USD-anchored rate (1.0 when the code is unknown). -/
def convert_to_usd (value : ℚ) (from_currency : String) (er : ExchangeRates) : ℚ :=
  if value = 0 then 0
  else
    let code := lookupCode from_currency
    if code = "USD" then value
    else value * rateLookup er.usd_rates code

/-- `convert_to_eur` (lines 256-280): 0 for a falsy amount, identity for EUR,
otherwise multiply by the EUR-anchored rate (1.0 when the code is unknown). -/
def convert_to_eur (value : ℚ) (from_currency : String) (er : ExchangeRates) : ℚ :=
  if value = 0 then 0
  else
    let code := lookupCode from_currency
    if code = "EUR" then value
    else value * rateLookup er.eur_rates code

/- ### Performance time series (lines 1399-1726) -/

/-- The fields of a replayed holding read by the per-month valuation loop of
`compute_portfolio_performance` (lines 1512-1545). -/
structure PerfHolding where
  symbol : String
  total_shares : ℚ
  weighted_avg_cost : ℚ
  currency : String
deriving DecidableEq

/-- The price used for a holding (lines 1516-1535): the looked-up current or
historical price, falling back to the holding's own weighted average cost when
no price is available. -/
def resolvedPrice (priceOf : String → Option ℚ) (h : PerfHolding) : ℚ :=
  (priceOf h.symbol).getD h.weighted_avg_cost

/-- `holdings_gain_loss_list` (lines 1510-1545): the per-holding ratio
`(current_price - avg_cost) / avg_cost`, collected only when `avg_cost > 0`. -/
def gainLossList (priceOf : String → Option ℚ) (hs : List PerfHolding) : List ℚ :=
  hs.filterMap
    (fun h =>
      if h.weighted_avg_cost > 0 then
        some ((resolvedPrice priceOf h - h.weighted_avg_cost) / h.weighted_avg_cost)
      else none)

/-- `avg_pct_gain_loss` (lines 1547-1551): the plain average of the collected
ratios, 0 when the list is empty. -/
def avg_pct_gain_loss (priceOf : String → Option ℚ) (hs : List PerfHolding) : ℚ :=
  let l := gainLossList priceOf hs
  if l = [] then 0 else l.sum / (l.length : ℚ)

/-- The monthly portfolio returns of `create_performance_analysis`
(lines 1656-1660): the first month's return is its own `avg_pct_gain_loss`,
every later month's return is the difference from the previous month's value
(`previous_avg_pct_gain_loss` is updated unconditionally, line 1724). -/
def monthlyReturnsAux (prev : Option ℚ) : List ℚ → List ℚ
  | [] => []
  | a :: rest =>
    (match prev with
     | none => a
     | some p => a - p) :: monthlyReturnsAux (some a) rest

def monthlyReturns (avgs : List ℚ) : List ℚ := monthlyReturnsAux none avgs

/-- The cumulative-return column (lines 1671-1677): a running factor is
multiplied by `1 + monthly_return` each month and the recorded value is
`factor - 1`. -/
def cumulativeAux (factor : ℚ) : List ℚ → List ℚ
  | [] => []
  | r :: rest => (factor * (1 + r) - 1) :: cumulativeAux (factor * (1 + r)) rest

def cumulativeReturns (rs : List ℚ) : List ℚ := cumulativeAux 1 rs

/-- The alpha column (line 1680): cumulative portfolio return minus cumulative
benchmark return, month by month. -/
def alphaSeries (port bench : List ℚ) : List ℚ :=
  List.zipWith (fun a b => a - b) (cumulativeReturns port) (cumulativeReturns bench)

/-- The S&P 500 monthly return (lines 1662-1666):
`(sp500_price - previous_sp500_price) / previous_sp500_price` when a truthy
positive previous price and a truthy current price exist, else 0. -/
def sp500Return (prev cur : Option ℚ) : ℚ :=
  match prev, cur with
  | some p, some c => if p ≠ 0 ∧ 0 < p ∧ c ≠ 0 then (c - p) / p else 0
  | _, _ => 0

/-- The `previous_sp500_price` update (lines 1725-1726): only a truthy fetched
price replaces it; a missing month's close is carried forward. -/
def newPrev (prev cur : Option ℚ) : Option ℚ :=
  match cur with
  | some c => if c ≠ 0 then some c else prev
  | none => prev

/-- The benchmark monthly-return series over the per-month price lookups
(`None` = no data for that month). -/
def benchAux (prev : Option ℚ) : List (Option ℚ) → List ℚ
  | [] => []
  | cur :: rest => sp500Return prev cur :: benchAux (newPrev prev cur) rest

def benchmarkReturns (prices : List (Option ℚ)) : List ℚ := benchAux none prices

/-- The `previous_sp500_price` state after consuming a list of monthly
lookups. -/
def prevState (prices : List (Option ℚ)) : Option ℚ := prices.foldl newPrev none

/- ### Concrete inputs used by counterexamples and witnesses -/

/-- Shorthand transaction constructor for concrete inputs. -/
def mkTxn (sym ty : String) (sh pr : ℚ) (d : String) (f : ℚ) (acc : String) : Txn :=
  { symbol := sym, type := ty, shares := sh, price := pr, date := d,
    name := "N", currency := "$", account := acc, fee := f }

/-- The spec's worked FIFO scenario: Buy 10 @ 100, Buy 5 @ 120, Sell 12 @ 150
with fee 5. -/
def c2txns : List Txn :=
  [mkTxn "AAPL" "Buy" 10 100 "05-01-2024" 0 "A",
   mkTxn "AAPL" "Buy" 5 120 "10-02-2024" 0 "A",
   mkTxn "AAPL" "Sell" 12 150 "01-03-2024" 5 "A"]

/-- Buy 13 shares, then sell 20 (more than held). -/
def overSellTxns : List Txn :=
  [mkTxn "AAPL" "Buy" 13 10 "01-01-2024" 0 "A",
   mkTxn "AAPL" "Sell" 20 12 "01-02-2024" 0 "A"]

/-- The clamped variant: buy 13, sell exactly the 13 held. -/
def clampedSellTxns : List Txn :=
  [mkTxn "AAPL" "Buy" 13 10 "01-01-2024" 0 "A",
   mkTxn "AAPL" "Sell" 13 12 "01-02-2024" 0 "A"]

/-- A small covered-sell history for witnesses: buy 13, sell 5. -/
def coveredTxns : List Txn :=
  [mkTxn "AAPL" "Buy" 13 10 "01-01-2024" 0 "A",
   mkTxn "AAPL" "Sell" 5 12 "01-02-2024" 0 "A"]

/-- The analysis record of the spec's worked scenario, used as a concrete
input for the unrealized-P&L pass. -/
def c9rec : SellRecord :=
  ⟨"AAPL", "01-03-2024", "A", 12, 150, 1800, 5, 1795, 1240 / 12, 1240, 555,
   555 / 1240 * 100, "$"⟩

/-- Date-sorted stream with two symbols whose sells interleave in time:
AAPL sells on 10-01 and 10-03, MSFT sells on 10-02. -/
def c5txns : List Txn :=
  [mkTxn "AAPL" "Buy" 10 1 "01-01-2024" 0 "A",
   mkTxn "MSFT" "Buy" 10 1 "02-01-2024" 0 "A",
   mkTxn "AAPL" "Sell" 4 2 "10-01-2024" 0 "A",
   mkTxn "MSFT" "Sell" 5 2 "10-02-2024" 0 "A",
   mkTxn "AAPL" "Sell" 3 2 "10-03-2024" 0 "A"]

/-- The state invariant maintained by the replay: the cached totals agree with
the surviving lots and every lot has nonnegative shares. -/
def stateInv (h : Holdings) : Prop :=
  ∀ s, (h s).total_shares = lotsShares ((h s).lots)
     ∧ (h s).total_cost = lotsCost ((h s).lots)
     ∧ (h s).weighted_avg_cost
         = (if (h s).total_shares > 0 then (h s).total_cost / (h s).total_shares else 0)
     ∧ ∀ l ∈ (h s).lots, 0 ≤ l.shares

/-- Chronological order of a record list under the scripts' date key. -/
def chronological (rs : List SellRecord) : Prop :=
  List.Chain' (fun a b => dateKeyNat a.sell_date ≤ dateKeyNat b.sell_date) rs

/- ### Helper lemmas -/

theorem pyLower_Buy : pyLower "Buy" = "buy" := rfl

theorem pyLower_Sell : pyLower "Sell" = "sell" := rfl

theorem sell_ne_buy : ¬ (("sell" : String) = "buy") := by decide

theorem buy_ne_sell : ¬ (("buy" : String) = "sell") := by decide

theorem msft_ne_aapl : ¬ (("MSFT" : String) = "AAPL") := by decide

theorem aapl_ne_msft : ¬ (("AAPL" : String) = "MSFT") := by decide

theorem lotsShares_nil : lotsShares [] = 0 := rfl

theorem lotsShares_cons (l : Lot) (rest : List Lot) :
    lotsShares (l :: rest) = l.shares + lotsShares rest := by
  simp [lotsShares]

theorem lotsShares_append (a b : List Lot) :
    lotsShares (a ++ b) = lotsShares a + lotsShares b := by
  simp [lotsShares]

theorem lotsCost_cons (l : Lot) (rest : List Lot) :
    lotsCost (l :: rest) = l.shares * l.price + lotsCost rest := by
  simp [lotsCost]

theorem lotsShares_nonneg (lots : List Lot) (h : ∀ l ∈ lots, 0 ≤ l.shares) :
    0 ≤ lotsShares lots := by
  induction lots with
  | nil => simp [lotsShares_nil]
  | cons l rest ih =>
    rw [lotsShares_cons]
    have h1 := h l (List.mem_cons_self l rest)
    have h2 := ih (fun x hx => h x (List.mem_cons_of_mem l hx))
    linarith

theorem lotsCost_eq_zero (lots : List Lot) (hnn : ∀ l ∈ lots, 0 ≤ l.shares)
    (hz : lotsShares lots = 0) : lotsCost lots = 0 := by
  induction lots with
  | nil => rfl
  | cons l rest ih =>
    rw [lotsShares_cons] at hz
    have h1 := hnn l (List.mem_cons_self l rest)
    have h2 : ∀ x ∈ rest, 0 ≤ x.shares := fun x hx => hnn x (List.mem_cons_of_mem l hx)
    have h3 := lotsShares_nonneg rest h2
    have h4 : l.shares = 0 := by linarith
    have h5 : lotsShares rest = 0 := by linarith
    rw [lotsCost_cons, h4, ih h2 h5]
    ring

/-- Draining from the head: popping a lot whose shares fit in the remaining
amount. -/
theorem sellFromLots_pop (r : ℚ) (l : Lot) (rest : List Lot) (h0 : 0 < r)
    (hle : l.shares ≤ r) :
    sellFromLots r (l :: rest) = sellFromLots (r - l.shares) rest := by
  rw [sellFromLots]
  rw [if_neg (by linarith), if_pos hle]

/-- Draining from the head: splitting the head lot in place, keeping its
price and date. -/
theorem sellFromLots_split (r : ℚ) (l : Lot) (rest : List Lot) (h0 : 0 < r)
    (hgt : r < l.shares) :
    sellFromLots r (l :: rest) = { l with shares := l.shares - r } :: rest := by
  rw [sellFromLots]
  rw [if_neg (by linarith), if_neg (by linarith)]

/-- Selling strictly more than the queue holds drains it completely (the
source loop just runs out of lots). -/
theorem sellFromLots_drain (lots : List Lot) (r : ℚ)
    (hnn : ∀ l ∈ lots, 0 ≤ l.shares) (hgt : lotsShares lots < r) :
    sellFromLots r lots = [] := by
  induction lots generalizing r with
  | nil => rfl
  | cons l rest ih =>
    rw [lotsShares_cons] at hgt
    have h1 := hnn l (List.mem_cons_self l rest)
    have h2 : ∀ x ∈ rest, 0 ≤ x.shares := fun x hx => hnn x (List.mem_cons_of_mem l hx)
    have h3 := lotsShares_nonneg rest h2
    have hr : 0 < r := by linarith
    have hle : l.shares ≤ r := by linarith
    rw [sellFromLots_pop r l rest hr hle]
    exact ih _ h2 (by linarith)

/-- Selling exactly the total (or more, weakly) from an all-positive queue
also drains it completely. -/
theorem sellFromLots_drain_ge (lots : List Lot) (r : ℚ)
    (hpos : ∀ l ∈ lots, 0 < l.shares) (hge : lotsShares lots ≤ r) :
    sellFromLots r lots = [] := by
  induction lots generalizing r with
  | nil => rfl
  | cons l rest ih =>
    rw [lotsShares_cons] at hge
    have h1 := hpos l (List.mem_cons_self l rest)
    have h2 : ∀ x ∈ rest, 0 < x.shares := fun x hx => hpos x (List.mem_cons_of_mem l hx)
    have h3 : 0 ≤ lotsShares rest := lotsShares_nonneg rest (fun x hx => le_of_lt (h2 x hx))
    have hr : 0 < r := by linarith
    have hle : l.shares ≤ r := by linarith
    rw [sellFromLots_pop r l rest hr hle]
    exact ih _ h2 (by linarith)

theorem updateH_same (h : Holdings) (s : String) (sd : SymbolData) :
    updateH h s sd s = sd := by
  simp [updateH]

theorem updateH_other (h : Holdings) (s x : String) (sd : SymbolData) (hne : x ≠ s) :
    updateH h s sd x = h x := by
  simp [updateH, hne]

theorem applyTxn_at_symbol (h : Holdings) (t : Txn) :
    (applyTxn h t) t.symbol
      = calculate_totals
          (if pyLower t.type = "buy" then
            { h t.symbol with lots := (h t.symbol).lots ++ [⟨t.shares, t.price, t.date⟩],
                              name := t.name, currency := t.currency }
          else if pyLower t.type = "sell" then
            { h t.symbol with lots := sellFromLots t.shares (h t.symbol).lots }
          else h t.symbol) := by
  simp only [applyTxn, updateH_same]

theorem applyTxn_other (h : Holdings) (t : Txn) (x : String) (hne : x ≠ t.symbol) :
    (applyTxn h t) x = h x := by
  simp only [applyTxn]
  exact updateH_other _ _ _ _ hne

/- ### Claim C1 -/

/-- C1 counterexample: selling 20 shares when only 13 are held raises no
error — the replay returns a perfectly ordinary state, identical (at the
symbol) to the state produced by a sell clamped to the 13 available shares,
with all lots drained; the claimed hard rejection does not happen. -/
theorem c1_counterexample :
    (process_transactions emptyHoldings overSellTxns) "AAPL"
        = (process_transactions emptyHoldings clampedSellTxns) "AAPL"
      ∧ ((process_transactions emptyHoldings overSellTxns) "AAPL").lots = []
      ∧ ((process_transactions emptyHoldings overSellTxns) "AAPL").total_shares = 0 := by
  refine ⟨?_, ?_, ?_⟩ <;>
    norm_num [process_transactions, overSellTxns, clampedSellTxns, mkTxn, applyTxn,
      emptyHoldings, emptySymbolData, updateH, calculate_totals, sellFromLots,
      lotsShares, lotsCost, pyLower_Buy, pyLower_Sell, sell_ne_buy]

/-- C1 (amended): a Sell for strictly more shares than currently held is NOT
detected or rejected: `process_transactions` is a total function that raises
no error, silently clamps the sell to the available shares — the resulting
state at the symbol equals the state of selling every held share — and leaves
the symbol with no lots and `total_shares = 0`. -/
theorem c1_amended (h : Holdings) (t : Txn) (hsell : pyLower t.type = "sell")
    (hpos : ∀ l ∈ (h t.symbol).lots, 0 < l.shares)
    (hover : lotsShares ((h t.symbol).lots) < t.shares) :
    (applyTxn h t) t.symbol
        = (applyTxn h { t with shares := lotsShares ((h t.symbol).lots) }) t.symbol
      ∧ ((applyTxn h t) t.symbol).lots = []
      ∧ ((applyTxn h t) t.symbol).total_shares = 0 := by
  have hnn : ∀ l ∈ (h t.symbol).lots, 0 ≤ l.shares := fun l hl => le_of_lt (hpos l hl)
  have hd1 : sellFromLots t.shares ((h t.symbol).lots) = [] :=
    sellFromLots_drain _ _ hnn hover
  have hd2 : sellFromLots (lotsShares ((h t.symbol).lots)) ((h t.symbol).lots) = [] :=
    sellFromLots_drain_ge _ _ hpos le_rfl
  have hnotbuy : ¬ (pyLower t.type = "buy") := by
    rw [hsell]; exact sell_ne_buy
  constructor
  · rw [applyTxn_at_symbol, applyTxn_at_symbol]
    simp only [if_neg hnotbuy, if_pos hsell, hd1, hd2]
  · constructor
    · rw [applyTxn_at_symbol]
      simp only [if_neg hnotbuy, if_pos hsell, hd1, calculate_totals]
    · rw [applyTxn_at_symbol]
      simp only [if_neg hnotbuy, if_pos hsell, hd1, calculate_totals, lotsShares_nil]

/-- C1 witness: the amended statement applied to the concrete over-sell
(13 held, sell 20). -/
theorem c1_witness :
    (applyTxn (process_transactions emptyHoldings [mkTxn "AAPL" "Buy" 13 10 "01-01-2024" 0 "A"])
        (mkTxn "AAPL" "Sell" 20 12 "01-02-2024" 0 "A")) "AAPL"
        = (applyTxn (process_transactions emptyHoldings [mkTxn "AAPL" "Buy" 13 10 "01-01-2024" 0 "A"])
            { mkTxn "AAPL" "Sell" 20 12 "01-02-2024" 0 "A" with
              shares := lotsShares (((process_transactions emptyHoldings
                [mkTxn "AAPL" "Buy" 13 10 "01-01-2024" 0 "A"]) "AAPL").lots) }) "AAPL"
      ∧ ((applyTxn (process_transactions emptyHoldings [mkTxn "AAPL" "Buy" 13 10 "01-01-2024" 0 "A"])
          (mkTxn "AAPL" "Sell" 20 12 "01-02-2024" 0 "A")) "AAPL").lots = []
      ∧ ((applyTxn (process_transactions emptyHoldings [mkTxn "AAPL" "Buy" 13 10 "01-01-2024" 0 "A"])
          (mkTxn "AAPL" "Sell" 20 12 "01-02-2024" 0 "A")) "AAPL").total_shares = 0 :=
  c1_amended _ _ (by rfl)
    (by
      norm_num [process_transactions, mkTxn, applyTxn, emptyHoldings, emptySymbolData,
        updateH, calculate_totals, lotsShares, lotsCost, pyLower_Buy])
    (by
      norm_num [process_transactions, mkTxn, applyTxn, emptyHoldings, emptySymbolData,
        updateH, calculate_totals, lotsShares, lotsCost, pyLower_Buy])

/- ### Claim C2 -/

/-- C2: the FIFO mechanics — a Buy appends a lot at the tail; a Sell pops a
head lot whose shares fit the remaining amount and splits the head lot
otherwise, keeping its price and date — and the spec's worked scenario:
Buy 10 @ 100, Buy 5 @ 120, Sell 12 @ 150 fee 5 consumes all of the first lot
and 2 shares of the second, leaving one lot of 3 @ 120, with cost basis 1240,
gross proceeds 1800, net proceeds 1795 and realized P&L 555. -/
theorem c2_fifo_scenario :
    (∀ (h : Holdings) (t : Txn), pyLower t.type = "buy" →
        ((applyTxn h t) t.symbol).lots = (h t.symbol).lots ++ [⟨t.shares, t.price, t.date⟩])
    ∧ (∀ (r : ℚ) (l : Lot) (rest : List Lot), 0 < r → l.shares ≤ r →
        sellFromLots r (l :: rest) = sellFromLots (r - l.shares) rest)
    ∧ (∀ (r : ℚ) (l : Lot) (rest : List Lot), 0 < r → r < l.shares →
        sellFromLots r (l :: rest) = { l with shares := l.shares - r } :: rest)
    ∧ ((process_transactions emptyHoldings c2txns) "AAPL").lots
        = [{ shares := 3, price := 120, date := "10-02-2024" }]
    ∧ ((process_transactions emptyHoldings c2txns) "AAPL").total_shares = 3
    ∧ ((process_transactions emptyHoldings c2txns) "AAPL").weighted_avg_cost = 120
    ∧ (analyze_sell_transactions c2txns).map
        (fun r => (r.total_cost_basis, r.gross_proceeds, r.net_proceeds, r.realized_pnl))
        = [(1240, 1800, 1795, 555)] := by
  refine ⟨?_, ?_, ?_, ?_, ?_, ?_, ?_⟩
  · intro h t hb
    rw [applyTxn_at_symbol, if_pos hb]
    simp [calculate_totals]
  · exact sellFromLots_pop
  · exact sellFromLots_split
  · norm_num [process_transactions, c2txns, mkTxn, applyTxn, emptyHoldings, emptySymbolData,
      updateH, calculate_totals, sellFromLots, lotsShares, lotsCost,
      pyLower_Buy, pyLower_Sell, sell_ne_buy]
  · norm_num [process_transactions, c2txns, mkTxn, applyTxn, emptyHoldings, emptySymbolData,
      updateH, calculate_totals, sellFromLots, lotsShares, lotsCost,
      pyLower_Buy, pyLower_Sell, sell_ne_buy]
  · norm_num [process_transactions, c2txns, mkTxn, applyTxn, emptyHoldings, emptySymbolData,
      updateH, calculate_totals, sellFromLots, lotsShares, lotsCost,
      pyLower_Buy, pyLower_Sell, sell_ne_buy]
  · norm_num [analyze_sell_transactions, c2txns, mkTxn, symbolsInOrder, concatMapRecords,
      analyzeSymbolTxns, analyzeStep, sellRecordOf, fifoSell, pyLower_Buy, pyLower_Sell,
      sell_ne_buy]

/-- C2 witness: the general FIFO rules applied at concrete inputs (pop a
3-share lot selling 5; split a 5-share lot selling 2; appending a bought
lot). -/
theorem c2_witness :
    sellFromLots 5 [{ shares := 3, price := 10, date := "d" }]
        = sellFromLots (5 - 3) []
      ∧ sellFromLots 2 [{ shares := 5, price := 120, date := "10-02-2024" }]
        = [{ shares := 5 - 2, price := 120, date := "10-02-2024" }]
      ∧ ((applyTxn emptyHoldings (mkTxn "AAPL" "Buy" 10 100 "05-01-2024" 0 "A")) "AAPL").lots
        = (emptyHoldings "AAPL").lots ++ [⟨10, 100, "05-01-2024"⟩] :=
  ⟨c2_fifo_scenario.2.1 5 { shares := 3, price := 10, date := "d" } [] (by norm_num) (by norm_num),
   c2_fifo_scenario.2.2.1 2 { shares := 5, price := 120, date := "10-02-2024" } [] (by norm_num) (by norm_num),
   c2_fifo_scenario.1 emptyHoldings (mkTxn "AAPL" "Buy" 10 100 "05-01-2024" 0 "A") (by rfl)⟩

/- ### Replay invariants -/

theorem stateInv_empty : stateInv emptyHoldings := by
  intro s
  refine ⟨rfl, rfl, by norm_num [emptyHoldings, emptySymbolData], ?_⟩
  intro l hl
  simp [emptyHoldings, emptySymbolData] at hl

theorem sellFromLots_nonneg (lots : List Lot) (r : ℚ)
    (hnn : ∀ l ∈ lots, 0 ≤ l.shares) :
    ∀ l ∈ sellFromLots r lots, 0 ≤ l.shares := by
  induction lots generalizing r with
  | nil => intro l hl; simp [sellFromLots] at hl
  | cons a rest ih =>
    intro l hl
    rw [sellFromLots] at hl
    by_cases h0 : r ≤ 0
    · rw [if_pos h0] at hl
      exact hnn l hl
    · rw [if_neg h0] at hl
      by_cases h1 : a.shares ≤ r
      · rw [if_pos h1] at hl
        exact ih (r - a.shares) (fun x hx => hnn x (List.mem_cons_of_mem a hx)) l hl
      · rw [if_neg h1] at hl
        rcases List.mem_cons.mp hl with h2 | h2
        · subst h2
          have := hnn a (List.mem_cons_self a rest)
          simp only []
          push_neg at h0 h1
          linarith
        · exact hnn l (List.mem_cons_of_mem a h2)

theorem applyTxn_stateInv (h : Holdings) (t : Txn) (hinv : stateInv h)
    (hnn : 0 ≤ t.shares) : stateInv (applyTxn h t) := by
  intro s
  by_cases hs : s = t.symbol
  · rw [hs, applyTxn_at_symbol]
    refine ⟨rfl, rfl, rfl, ?_⟩
    intro l hl
    have hcl : ∀ sd : SymbolData, (calculate_totals sd).lots = sd.lots := fun _ => rfl
    rw [hcl] at hl
    by_cases hb : pyLower t.type = "buy"
    · rw [if_pos hb] at hl
      simp only [List.mem_append, List.mem_singleton] at hl
      rcases hl with hl | hl
      · exact (hinv t.symbol).2.2.2 l hl
      · subst hl; exact hnn
    · rw [if_neg hb] at hl
      by_cases hsell : pyLower t.type = "sell"
      · rw [if_pos hsell] at hl
        exact sellFromLots_nonneg _ _ ((hinv t.symbol).2.2.2) l hl
      · rw [if_neg hsell] at hl
        exact (hinv t.symbol).2.2.2 l hl
  · rw [applyTxn_other h t s hs]
    exact hinv s

theorem replay_stateInv (ts : List Txn) (h : Holdings) (hinv : stateInv h)
    (hnn : ∀ t ∈ ts, 0 ≤ t.shares) : stateInv (process_transactions h ts) := by
  induction ts generalizing h with
  | nil => exact hinv
  | cons t rest ih =>
    have h1 : stateInv (applyTxn h t) :=
      applyTxn_stateInv h t hinv (hnn t (List.mem_cons_self t rest))
    exact ih (applyTxn h t) h1 (fun x hx => hnn x (List.mem_cons_of_mem t hx))

/-- Share count for a sell covered by the queue: the drain removes exactly
`r` shares. -/
theorem lotsShares_sellFromLots (lots : List Lot) (r : ℚ) (h0 : 0 ≤ r)
    (hle : r ≤ lotsShares lots) :
    lotsShares (sellFromLots r lots) = lotsShares lots - r := by
  induction lots generalizing r with
  | nil =>
    rw [lotsShares_nil] at hle
    have : r = 0 := le_antisymm hle h0
    subst this
    simp [sellFromLots, lotsShares_nil]
  | cons l rest ih =>
    rw [sellFromLots]
    by_cases hz : r ≤ 0
    · have : r = 0 := le_antisymm hz h0
      subst this
      rw [if_pos le_rfl]
      ring
    · rw [if_neg hz]
      push_neg at hz
      rw [lotsShares_cons] at hle
      by_cases h1 : l.shares ≤ r
      · rw [if_pos h1, ih (r - l.shares) (by linarith) (by linarith), lotsShares_cons]
        ring
      · rw [if_neg h1, lotsShares_cons, lotsShares_cons]
        simp only []
        ring

theorem boughtShares_cons (s : String) (t : Txn) (ts : List Txn) :
    boughtShares s (t :: ts)
      = (if t.symbol = s ∧ pyLower t.type = "buy" then t.shares else 0) + boughtShares s ts := by
  rw [boughtShares, boughtShares, List.filter_cons]
  by_cases hc : t.symbol = s ∧ pyLower t.type = "buy"
  · simp [hc]
  · simp [hc]

theorem soldShares_cons (s : String) (t : Txn) (ts : List Txn) :
    soldShares s (t :: ts)
      = (if t.symbol = s ∧ pyLower t.type = "sell" then t.shares else 0) + soldShares s ts := by
  rw [soldShares, soldShares, List.filter_cons]
  by_cases hc : t.symbol = s ∧ pyLower t.type = "sell"
  · simp [hc]
  · simp [hc]

/-- One covered step moves the per-symbol lot total by the bought/sold
shares. -/
theorem applyTxn_lotsShares (h : Holdings) (t : Txn) (s : String)
    (hnn : 0 ≤ t.shares)
    (hcov : pyLower t.type = "sell" → t.shares ≤ lotsShares ((h t.symbol).lots)) :
    lotsShares (((applyTxn h t) s).lots)
      = lotsShares ((h s).lots)
        + (if t.symbol = s ∧ pyLower t.type = "buy" then t.shares else 0)
        - (if t.symbol = s ∧ pyLower t.type = "sell" then t.shares else 0) := by
  by_cases hs : s = t.symbol
  · rw [hs, applyTxn_at_symbol]
    by_cases hb : pyLower t.type = "buy"
    · have hns : ¬ (pyLower t.type = "sell") := by rw [hb]; exact buy_ne_sell
      have hc2 : ¬ (t.symbol = t.symbol ∧ pyLower t.type = "sell") := fun hc => hns hc.2
      rw [if_pos hb]
      rw [if_pos ⟨rfl, hb⟩, if_neg hc2]
      show lotsShares ((h t.symbol).lots ++ [⟨t.shares, t.price, t.date⟩]) = _
      rw [lotsShares_append]
      simp [lotsShares]
    · have hc1 : ¬ (t.symbol = t.symbol ∧ pyLower t.type = "buy") := fun hc => hb hc.2
      rw [if_neg hb, if_neg hc1]
      by_cases hsell : pyLower t.type = "sell"
      · rw [if_pos hsell, if_pos ⟨rfl, hsell⟩]
        show lotsShares (sellFromLots t.shares ((h t.symbol).lots)) = _
        rw [lotsShares_sellFromLots _ _ hnn (hcov hsell)]
        ring
      · have hc3 : ¬ (t.symbol = t.symbol ∧ pyLower t.type = "sell") := fun hc => hsell hc.2
        rw [if_neg hsell, if_neg hc3]
        show lotsShares ((h t.symbol).lots) = lotsShares ((h t.symbol).lots) + 0 - 0
        ring
  · rw [applyTxn_other h t s (by exact hs)]
    have h1 : ¬ (t.symbol = s ∧ pyLower t.type = "buy") := by
      intro hc; exact hs hc.1.symm
    have h2 : ¬ (t.symbol = s ∧ pyLower t.type = "sell") := by
      intro hc; exact hs hc.1.symm
    rw [if_neg h1, if_neg h2]
    ring

/-- Covered replay: the lot total of every symbol moves by exactly
bought − sold. -/
theorem replay_lotsShares (ts : List Txn) (h : Holdings)
    (hnn : ∀ t ∈ ts, 0 ≤ t.shares) (hcov : sellsCoveredB h ts = true) (s : String) :
    lotsShares (((process_transactions h ts) s).lots)
      = lotsShares ((h s).lots) + boughtShares s ts - soldShares s ts := by
  induction ts generalizing h with
  | nil =>
    simp [process_transactions, boughtShares, soldShares]
  | cons t rest ih =>
    rw [sellsCoveredB] at hcov
    rw [Bool.and_eq_true] at hcov
    have hc1 : pyLower t.type = "sell" → t.shares ≤ lotsShares ((h t.symbol).lots) := by
      intro hsell
      have := hcov.1
      rw [if_pos hsell] at this
      exact of_decide_eq_true this
    have hstep := applyTxn_lotsShares h t s (hnn t (List.mem_cons_self t rest)) hc1
    have hrest := ih (applyTxn h t) (fun x hx => hnn x (List.mem_cons_of_mem t hx)) hcov.2
    show lotsShares (((process_transactions (applyTxn h t) rest) s).lots) = _
    rw [hrest, hstep, boughtShares_cons, soldShares_cons]
    ring

/- ### Claim C3 -/

/-- C3 counterexample: with Buy 13 then Sell 20 the claimed identity
`total_shares = Σ buys − Σ sells` fails — the replay clamps the sell, leaving
`total_shares = 0` while `Σ buys − Σ sells = 13 − 20 = −7`. -/
theorem c3_counterexample :
    ((process_transactions emptyHoldings overSellTxns) "AAPL").total_shares = 0
      ∧ boughtShares "AAPL" overSellTxns - soldShares "AAPL" overSellTxns = -7
      ∧ ((process_transactions emptyHoldings overSellTxns) "AAPL").total_shares
          ≠ boughtShares "AAPL" overSellTxns - soldShares "AAPL" overSellTxns := by
  refine ⟨?_, ?_, ?_⟩ <;>
    norm_num [process_transactions, overSellTxns, mkTxn, applyTxn, emptyHoldings,
      emptySymbolData, updateH, calculate_totals, sellFromLots, lotsShares, lotsCost,
      boughtShares, soldShares, List.filter, pyLower_Buy, pyLower_Sell, sell_ne_buy,
      buy_ne_sell]

/-- C3 (amended): for nonnegative share counts, after FIFO replay
`total_shares(symbol) = Σ buy shares − Σ sell shares` holds for every symbol
PROVIDED every Sell is covered by the shares of its symbol held at that point
of the replay; and `total_shares` is never negative, covered or not (an
uncovered Sell is clamped, so the identity fails but no holding goes
negative). -/
theorem c3_amended (ts : List Txn) (hnn : ∀ t ∈ ts, 0 ≤ t.shares) :
    (sellsCoveredB emptyHoldings ts = true →
      ∀ s, ((process_transactions emptyHoldings ts) s).total_shares
            = boughtShares s ts - soldShares s ts)
    ∧ (∀ s, 0 ≤ ((process_transactions emptyHoldings ts) s).total_shares) := by
  have hinv := replay_stateInv ts emptyHoldings stateInv_empty hnn
  constructor
  · intro hcov s
    have h1 := replay_lotsShares ts emptyHoldings hnn hcov s
    rw [(hinv s).1, h1]
    show lotsShares (emptySymbolData.lots) + _ - _ = _
    rw [show emptySymbolData.lots = [] from rfl, lotsShares_nil]
    ring
  · intro s
    rw [(hinv s).1]
    exact lotsShares_nonneg _ ((hinv s).2.2.2)

/-- C3 witness: the amended statement applied to the covered history
Buy 13 then Sell 5, at symbol AAPL: total shares 13 − 5 and nonnegative. -/
theorem c3_witness :
    ((process_transactions emptyHoldings coveredTxns) "AAPL").total_shares
        = boughtShares "AAPL" coveredTxns - soldShares "AAPL" coveredTxns
      ∧ 0 ≤ ((process_transactions emptyHoldings coveredTxns) "AAPL").total_shares :=
  ⟨(c3_amended coveredTxns (by
      intro t ht
      simp only [coveredTxns, mkTxn, List.mem_cons, List.not_mem_nil, or_false] at ht
      rcases ht with h1 | h1 <;> subst h1 <;> norm_num)).1
    (by
      norm_num [sellsCoveredB, coveredTxns, mkTxn, applyTxn, emptyHoldings, emptySymbolData,
        updateH, calculate_totals, sellFromLots, lotsShares, lotsCost,
        pyLower_Buy, pyLower_Sell, sell_ne_buy, buy_ne_sell]) "AAPL",
   (c3_amended coveredTxns (by
      intro t ht
      simp only [coveredTxns, mkTxn, List.mem_cons, List.not_mem_nil, or_false] at ht
      rcases ht with h1 | h1 <;> subst h1 <;> norm_num)).2 "AAPL"⟩

/- ### Claim C4 -/

/-- C4: after every processed transaction (i.e. after replaying any
nonnegative-share transaction list), every holding satisfies
`total_shares = Σ lot.shares`, `total_cost = Σ lot.shares * lot.price`,
`weighted_avg_cost = total_cost / total_shares` (0 when `total_shares` is not
positive), and the round trip `weighted_avg_cost * total_shares = total_cost`
— exactly, since the embedding computes in ℚ. -/
theorem c4_invariants (ts : List Txn) (hnn : ∀ t ∈ ts, 0 ≤ t.shares) (s : String) :
    ((process_transactions emptyHoldings ts) s).total_shares
        = lotsShares (((process_transactions emptyHoldings ts) s).lots)
      ∧ ((process_transactions emptyHoldings ts) s).total_cost
        = lotsCost (((process_transactions emptyHoldings ts) s).lots)
      ∧ ((process_transactions emptyHoldings ts) s).weighted_avg_cost
        = (if ((process_transactions emptyHoldings ts) s).total_shares > 0 then
            ((process_transactions emptyHoldings ts) s).total_cost
              / ((process_transactions emptyHoldings ts) s).total_shares
          else 0)
      ∧ ((process_transactions emptyHoldings ts) s).weighted_avg_cost
          * ((process_transactions emptyHoldings ts) s).total_shares
        = ((process_transactions emptyHoldings ts) s).total_cost := by
  have hinv := replay_stateInv ts emptyHoldings stateInv_empty hnn
  obtain ⟨h1, h2, h3, h4⟩ := hinv s
  refine ⟨h1, h2, h3, ?_⟩
  by_cases hpos : ((process_transactions emptyHoldings ts) s).total_shares > 0
  · rw [h3, if_pos hpos]
    exact div_mul_cancel₀ _ (ne_of_gt hpos)
  · have h5 : 0 ≤ ((process_transactions emptyHoldings ts) s).total_shares := by
      rw [h1]; exact lotsShares_nonneg _ h4
    have h6 : ((process_transactions emptyHoldings ts) s).total_shares = 0 := by
      push_neg at hpos
      exact le_antisymm hpos h5
    have h7 : lotsShares (((process_transactions emptyHoldings ts) s).lots) = 0 := by
      rw [← h1, h6]
    rw [h3, if_neg hpos, h6, h2, lotsCost_eq_zero _ h4 h7]
    ring

/-- C4 witness: the invariants at the end of the concrete covered history
Buy 13 then Sell 5, at symbol AAPL. -/
theorem c4_witness :
    ((process_transactions emptyHoldings coveredTxns) "AAPL").total_shares
        = lotsShares (((process_transactions emptyHoldings coveredTxns) "AAPL").lots)
      ∧ ((process_transactions emptyHoldings coveredTxns) "AAPL").total_cost
        = lotsCost (((process_transactions emptyHoldings coveredTxns) "AAPL").lots)
      ∧ ((process_transactions emptyHoldings coveredTxns) "AAPL").weighted_avg_cost
        = (if ((process_transactions emptyHoldings coveredTxns) "AAPL").total_shares > 0 then
            ((process_transactions emptyHoldings coveredTxns) "AAPL").total_cost
              / ((process_transactions emptyHoldings coveredTxns) "AAPL").total_shares
          else 0)
      ∧ ((process_transactions emptyHoldings coveredTxns) "AAPL").weighted_avg_cost
          * ((process_transactions emptyHoldings coveredTxns) "AAPL").total_shares
        = ((process_transactions emptyHoldings coveredTxns) "AAPL").total_cost :=
  c4_invariants coveredTxns
    (by
      intro t ht
      simp only [coveredTxns, mkTxn, List.mem_cons, List.not_mem_nil, or_false] at ht
      rcases ht with h1 | h1 <;> subst h1 <;> norm_num) "AAPL"

/- ### Analyzer structure lemmas -/

theorem sellRecordOf_symbol (q : List BLot) (t : Txn) : (sellRecordOf q t).symbol = t.symbol := rfl

theorem sellRecordOf_date (q : List BLot) (t : Txn) : (sellRecordOf q t).sell_date = t.date := rfl

theorem analyzeStep_buy (st : List BLot × List SellRecord) (t : Txn)
    (hb : pyLower t.type = "buy") :
    analyzeStep st t = (st.1 ++ [⟨t.shares, t.price, t.date, t.account⟩], st.2) := by
  rw [analyzeStep, if_pos hb]

theorem analyzeStep_sell (st : List BLot × List SellRecord) (t : Txn)
    (hb : ¬ pyLower t.type = "buy") (hs : pyLower t.type = "sell") :
    analyzeStep st t = ((fifoSell t.shares st.1 0 0).1, st.2 ++ [sellRecordOf st.1 t]) := by
  rw [analyzeStep, if_neg hb, if_pos hs]

theorem analyzeStep_other (st : List BLot × List SellRecord) (t : Txn)
    (hb : ¬ pyLower t.type = "buy") (hs : ¬ pyLower t.type = "sell") :
    analyzeStep st t = st := by
  rw [analyzeStep, if_neg hb, if_neg hs]

/-- The record list built by the per-symbol fold: one `(symbol, date)` entry
per Sell transaction, in input order, appended after the records already
accumulated. -/
theorem analyze_fold_map (g : List Txn) :
    ∀ (q : List BLot) (recs : List SellRecord),
      ((g.foldl analyzeStep (q, recs)).2).map (fun r => (r.symbol, r.sell_date))
        = recs.map (fun r => (r.symbol, r.sell_date))
          ++ (g.filter (fun t => pyLower t.type = "sell")).map (fun t => (t.symbol, t.date)) := by
  induction g with
  | nil => intro q recs; simp
  | cons t g ih =>
    intro q recs
    rw [List.foldl_cons]
    by_cases hb : pyLower t.type = "buy"
    · have hns : ¬ (pyLower t.type = "sell") := by rw [hb]; exact buy_ne_sell
      rw [analyzeStep_buy _ _ hb, ih]
      simp [List.filter_cons, hns]
    · by_cases hsell : pyLower t.type = "sell"
      · rw [analyzeStep_sell _ _ hb hsell, ih]
        simp [List.filter_cons, hsell, sellRecordOf_symbol, sellRecordOf_date]
      · rw [analyzeStep_other _ _ hb hsell, ih]
        simp [List.filter_cons, hsell]

theorem analyzeSymbolTxns_map (g : List Txn) :
    (analyzeSymbolTxns g).map (fun r => (r.symbol, r.sell_date))
      = (g.filter (fun t => pyLower t.type = "sell")).map (fun t => (t.symbol, t.date)) := by
  have h := analyze_fold_map g [] []
  simpa [analyzeSymbolTxns] using h

theorem analyzeSymbolTxns_length (g : List Txn) :
    (analyzeSymbolTxns g).length = (g.filter (fun t => pyLower t.type = "sell")).length := by
  have h := congrArg List.length (analyzeSymbolTxns_map g)
  simpa using h

theorem analyzeSymbolTxns_symbol (g : List Txn) (s : String)
    (hg : ∀ t ∈ g, t.symbol = s) : ∀ r ∈ analyzeSymbolTxns g, r.symbol = s := by
  intro r hr
  have h1 : (r.symbol, r.sell_date)
      ∈ (analyzeSymbolTxns g).map (fun r => (r.symbol, r.sell_date)) :=
    List.mem_map_of_mem _ hr
  rw [analyzeSymbolTxns_map] at h1
  obtain ⟨t, ht, hteq⟩ := List.mem_map.mp h1
  have h2 : t.symbol = r.symbol := congrArg Prod.fst hteq
  rw [← h2]
  exact hg t (List.mem_of_mem_filter ht)

theorem concatMapRecords_filter (keys : List String) (f : String → List SellRecord)
    (p : SellRecord → Bool) :
    (concatMapRecords keys f).filter p = concatMapRecords keys (fun k => (f k).filter p) := by
  induction keys with
  | nil => rfl
  | cons k ks ih =>
    rw [concatMapRecords, concatMapRecords, List.filter_append, ih]

theorem concatMapRecords_length (keys : List String) (f : String → List SellRecord) :
    (concatMapRecords keys f).length = ((keys.map (fun k => (f k).length)).sum) := by
  induction keys with
  | nil => rfl
  | cons k ks ih =>
    rw [concatMapRecords, List.length_append, ih, List.map_cons, List.sum_cons]

/- ### `symbolsInOrder` structure lemmas -/

theorem symbolsInOrder_loop_nodup (ts : List Txn) :
    ∀ acc : List String, acc.Nodup →
      (ts.foldl (fun acc t => if t.symbol ∈ acc then acc else acc ++ [t.symbol]) acc).Nodup := by
  induction ts with
  | nil => intro acc h; exact h
  | cons t ts ih =>
    intro acc h
    rw [List.foldl_cons]
    apply ih
    by_cases hm : t.symbol ∈ acc
    · rw [if_pos hm]; exact h
    · rw [if_neg hm]
      refine h.append (List.nodup_singleton _) ?_
      intro a ha hb
      rw [List.mem_singleton] at hb
      subst hb
      exact hm ha

theorem symbolsInOrder_nodup (ts : List Txn) : (symbolsInOrder ts).Nodup :=
  symbolsInOrder_loop_nodup ts [] List.nodup_nil

theorem symbolsInOrder_loop_mem (ts : List Txn) :
    ∀ (acc : List String) (x : String), x ∈ acc →
      x ∈ ts.foldl (fun acc t => if t.symbol ∈ acc then acc else acc ++ [t.symbol]) acc := by
  induction ts with
  | nil => intro acc x h; exact h
  | cons t ts ih =>
    intro acc x h
    rw [List.foldl_cons]
    apply ih
    by_cases hm : t.symbol ∈ acc
    · rw [if_pos hm]; exact h
    · rw [if_neg hm]; exact List.mem_append_left _ h

theorem symbolsInOrder_complete (ts : List Txn) :
    ∀ (acc : List String) (t : Txn), t ∈ ts →
      t.symbol ∈ ts.foldl (fun acc t => if t.symbol ∈ acc then acc else acc ++ [t.symbol]) acc := by
  induction ts with
  | nil => intro acc t h; exact absurd h (List.not_mem_nil t)
  | cons u ts ih =>
    intro acc t h
    rw [List.foldl_cons]
    rcases List.mem_cons.mp h with h1 | h1
    · subst h1
      apply symbolsInOrder_loop_mem
      by_cases hm : t.symbol ∈ acc
      · rw [if_pos hm]; exact hm
      · rw [if_neg hm]
        exact List.mem_append_right _ (List.mem_singleton.mpr rfl)
    · exact ih _ t h1

theorem mem_symbolsInOrder (ts : List Txn) (t : Txn) (h : t ∈ ts) :
    t.symbol ∈ symbolsInOrder ts :=
  symbolsInOrder_complete ts [] t h

/- ### Counting partition lemmas -/

theorem sum_map_add_nat (l : List String) (f g : String → ℕ) :
    ((l.map (fun x => f x + g x)).sum) = (l.map f).sum + (l.map g).sum := by
  induction l with
  | nil => rfl
  | cons a l ih =>
    rw [List.map_cons, List.sum_cons, ih, List.map_cons, List.sum_cons,
      List.map_cons, List.sum_cons]
    omega

theorem sum_indicator_zero (x : String) :
    ∀ keys : List String, x ∉ keys →
      ((keys.map (fun k => if x = k then (1 : ℕ) else 0)).sum) = 0 := by
  intro keys
  induction keys with
  | nil => intro _; rfl
  | cons k ks ih =>
    intro h
    rw [List.map_cons, List.sum_cons]
    have h1 : ¬ (x = k) := fun he => h (he ▸ List.mem_cons_self k ks)
    have h2 : x ∉ ks := fun hm => h (List.mem_cons_of_mem k hm)
    rw [if_neg h1, ih h2]

theorem sum_indicator_one (x : String) :
    ∀ keys : List String, keys.Nodup → x ∈ keys →
      ((keys.map (fun k => if x = k then (1 : ℕ) else 0)).sum) = 1 := by
  intro keys
  induction keys with
  | nil => intro _ h; exact absurd h (List.not_mem_nil x)
  | cons k ks ih =>
    intro hnd hx
    rw [List.map_cons, List.sum_cons]
    by_cases hk : x = k
    · rw [if_pos hk]
      have hnotin : x ∉ ks := by rw [hk]; exact (List.nodup_cons.mp hnd).1
      rw [sum_indicator_zero x ks hnotin]
    · rw [if_neg hk]
      have hx2 : x ∈ ks := by
        rcases List.mem_cons.mp hx with h1 | h1
        · exact absurd h1 hk
        · exact h1
      rw [ih (List.nodup_cons.mp hnd).2 hx2]

/-- Summing the per-symbol filter lengths over a duplicate-free key list that
covers every element gives the total length. -/
theorem filter_partition_length (l : List Txn) :
    ∀ keys : List String, keys.Nodup → (∀ t ∈ l, t.symbol ∈ keys) →
      ((keys.map (fun k => (l.filter (fun t => t.symbol = k)).length)).sum) = l.length := by
  induction l with
  | nil =>
    intro keys _ _
    have h : ∀ k ∈ keys, (([] : List Txn).filter (fun t => t.symbol = k)).length = 0 := by
      intro k _; rfl
    rw [List.map_congr_left h]
    simp
  | cons t l ih =>
    intro keys hnd hmem
    have h1 : ∀ x ∈ l, x.symbol ∈ keys := fun x hx => hmem x (List.mem_cons_of_mem t hx)
    have h3 : ∀ k ∈ keys, ((t :: l).filter (fun x => x.symbol = k)).length
        = (if t.symbol = k then (1 : ℕ) else 0) + (l.filter (fun x => x.symbol = k)).length := by
      intro k _
      rw [List.filter_cons]
      by_cases hk : t.symbol = k
      · simp [hk, Nat.add_comm]
      · simp [hk]
    rw [List.map_congr_left h3, sum_map_add_nat,
      sum_indicator_one t.symbol keys hnd (hmem t (List.mem_cons_self t l)), ih keys hnd h1]
    simp [Nat.add_comm]

/-- Filtering the concatenated per-symbol groups by one symbol keeps exactly
that symbol's group (keys duplicate-free, each group's records carrying its
own key as symbol). -/
theorem concatMapRecords_filter_single (s : String) :
    ∀ (keys : List String) (f : String → List SellRecord), keys.Nodup →
      (∀ k ∈ keys, ∀ r ∈ f k, r.symbol = k) →
      concatMapRecords keys (fun k => (f k).filter (fun r => r.symbol = s))
        = if s ∈ keys then f s else [] := by
  intro keys
  induction keys with
  | nil =>
    intro f _ _
    rw [if_neg (List.not_mem_nil s)]
    rfl
  | cons k ks ih =>
    intro f hnd hf
    rw [concatMapRecords]
    by_cases hk : k = s
    · subst hk
      have h1 : (f k).filter (fun r => r.symbol = k) = f k := by
        rw [List.filter_eq_self]
        intro r hr
        exact decide_eq_true (hf k (List.mem_cons_self k ks) r hr)
      have hnotin : k ∉ ks := (List.nodup_cons.mp hnd).1
      have h2 : concatMapRecords ks (fun k2 => (f k2).filter (fun r => r.symbol = k)) = [] := by
        rw [ih f (List.nodup_cons.mp hnd).2 (fun k2 hk2 => hf k2 (List.mem_cons_of_mem _ hk2)),
          if_neg hnotin]
      rw [h1, h2, if_pos (List.mem_cons_self k ks)]
      simp
    · have h1 : (f k).filter (fun r => r.symbol = s) = [] := by
        rw [List.filter_eq_nil_iff]
        intro r hr hdec
        exact hk ((hf k (List.mem_cons_self k ks) r hr).symm.trans (of_decide_eq_true hdec))
      rw [h1,
        ih f (List.nodup_cons.mp hnd).2 (fun k2 hk2 => hf k2 (List.mem_cons_of_mem _ hk2))]
      by_cases hs : s ∈ ks
      · rw [if_pos hs, if_pos (List.mem_cons_of_mem _ hs)]
        rfl
      · rw [if_neg hs, if_neg ?_]
        · rfl
        · intro hc
          rcases List.mem_cons.mp hc with hc1 | hc1
          · exact hk hc1.symm
          · exact hs hc1

/- ### Claim C5 -/

/-- C5 counterexample: on a date-sorted stream where AAPL sells on 10-01 and
10-03 and MSFT sells on 10-02, the analyzer emits the AAPL records first
(grouped by symbol), so the output dates run 10-01, 10-03, 10-02 — one record
per sell, but NOT chronologically ordered across symbols. -/
theorem c5_counterexample :
    List.Chain' (fun a b => dateKeyNat a.date ≤ dateKeyNat b.date) c5txns
      ∧ (analyze_sell_transactions c5txns).map (fun r => (r.symbol, r.sell_date))
        = [("AAPL", "10-01-2024"), ("AAPL", "10-03-2024"), ("MSFT", "10-02-2024")]
      ∧ ¬ chronological (analyze_sell_transactions c5txns) := by
  have hmap : (analyze_sell_transactions c5txns).map (fun r => (r.symbol, r.sell_date))
      = [("AAPL", "10-01-2024"), ("AAPL", "10-03-2024"), ("MSFT", "10-02-2024")] := by
    norm_num [analyze_sell_transactions, c5txns, mkTxn, symbolsInOrder, concatMapRecords,
      analyzeSymbolTxns, analyzeStep, sellRecordOf, fifoSell, List.filter_cons,
      pyLower_Buy, pyLower_Sell, sell_ne_buy, msft_ne_aapl, aapl_ne_msft]
  refine ⟨?_, hmap, ?_⟩
  · simp only [c5txns, mkTxn, List.chain'_cons, List.chain'_singleton]
    exact ⟨by decide, by decide, by decide, by decide⟩
  intro hchron
  have hdates : (analyze_sell_transactions c5txns).map (fun r => dateKeyNat r.sell_date)
      = [20240110, 20240310, 20240210] := by
    have h2 := congrArg (List.map (fun p : String × String => dateKeyNat p.2)) hmap
    rw [List.map_map] at h2
    rw [show ((fun p : String × String => dateKeyNat p.2)
          ∘ fun r : SellRecord => (r.symbol, r.sell_date))
        = fun r : SellRecord => dateKeyNat r.sell_date from rfl] at h2
    rw [h2]
    decide
  have h7 : List.Chain' (fun a b : ℕ => a ≤ b)
      ((analyze_sell_transactions c5txns).map (fun r => dateKeyNat r.sell_date)) :=
    (List.chain'_map _).mpr hchron
  rw [hdates] at h7
  have h8 := (List.chain'_cons.mp h7).2
  have h9 := (List.chain'_cons.mp h8).1
  omega

/-- C5 (amended): the analyzer emits exactly one record per Sell transaction,
but the output is grouped by symbol (symbols in order of first appearance in
the date-sorted stream), chronological only within each symbol: for every
symbol, the record dates are exactly the dates of that symbol's sells in
stream order.  Across symbols the output is not chronologically sorted. -/
theorem c5_amended (txns : List Txn) :
    (analyze_sell_transactions txns).length
        = (txns.filter (fun t => pyLower t.type = "sell")).length
    ∧ ∀ s : String,
        ((analyze_sell_transactions txns).filter (fun r => r.symbol = s)).map
            (fun r => r.sell_date)
          = (txns.filter (fun t => t.symbol = s ∧ pyLower t.type = "sell")).map
              (fun t => t.date) := by
  constructor
  · rw [analyze_sell_transactions, concatMapRecords_length]
    have h1 : ∀ k ∈ symbolsInOrder txns,
        (analyzeSymbolTxns (txns.filter (fun t => t.symbol = k))).length
          = ((txns.filter (fun t => pyLower t.type = "sell")).filter
              (fun t => t.symbol = k)).length := by
      intro k _
      rw [analyzeSymbolTxns_length, List.filter_filter, List.filter_filter]
      apply congrArg List.length
      apply List.filter_congr
      intro t _
      rw [Bool.and_comm]
    rw [List.map_congr_left h1]
    exact filter_partition_length _ (symbolsInOrder txns) (symbolsInOrder_nodup txns)
      (fun t ht => mem_symbolsInOrder txns t (List.mem_of_mem_filter ht))
  · intro s
    rw [analyze_sell_transactions, concatMapRecords_filter]
    have hsym : ∀ k ∈ symbolsInOrder txns,
        ∀ r ∈ analyzeSymbolTxns (txns.filter (fun t => t.symbol = k)), r.symbol = k := by
      intro k _ r hr
      refine analyzeSymbolTxns_symbol _ k ?_ r hr
      intro t ht
      exact of_decide_eq_true (List.mem_filter.mp ht).2
    rw [concatMapRecords_filter_single s (symbolsInOrder txns) _ (symbolsInOrder_nodup txns) hsym]
    by_cases hs : s ∈ symbolsInOrder txns
    · rw [if_pos hs]
      have h2 := analyzeSymbolTxns_map (txns.filter (fun t => t.symbol = s))
      have h3 := congrArg (List.map (fun p : String × String => p.2)) h2
      rw [List.map_map, List.map_map] at h3
      rw [show ((fun p : String × String => p.2)
            ∘ fun r : SellRecord => (r.symbol, r.sell_date))
          = fun r : SellRecord => r.sell_date from rfl] at h3
      rw [show ((fun p : String × String => p.2) ∘ fun t : Txn => (t.symbol, t.date))
          = fun t : Txn => t.date from rfl] at h3
      rw [h3, List.filter_filter]
      apply congrArg (List.map _)
      apply List.filter_congr
      intro t _
      by_cases hb1 : pyLower t.type = "sell" <;> by_cases hb2 : t.symbol = s <;>
        simp [hb1, hb2]
    · rw [if_neg hs]
      have h4 : txns.filter (fun t => t.symbol = s ∧ pyLower t.type = "sell") = [] := by
        rw [List.filter_eq_nil_iff]
        intro t ht hdec
        have h5 := of_decide_eq_true hdec
        exact hs (h5.1 ▸ mem_symbolsInOrder txns t ht)
      rw [h4]
      rfl

/-- C5 witness: the amended statement applied to the concrete two-symbol
stream, instantiated at symbol MSFT. -/
theorem c5_witness :
    (analyze_sell_transactions c5txns).length
        = (c5txns.filter (fun t => pyLower t.type = "sell")).length
      ∧ ((analyze_sell_transactions c5txns).filter (fun r => r.symbol = "MSFT")).map
            (fun r => r.sell_date)
        = (c5txns.filter (fun t => t.symbol = "MSFT" ∧ pyLower t.type = "sell")).map
            (fun t => t.date) :=
  ⟨(c5_amended c5txns).1, (c5_amended c5txns).2 "MSFT"⟩

/- ### Claim C6 -/

/-- C6: the converters are the identity on their base currency for every
amount, send amount 0 to 0 for every currency, and for any currency whose
normalized code is absent from the respective rate table they fall back to
rate 1 and return the amount unchanged. -/
theorem c6_currency (er : ExchangeRates) :
    (∀ x : ℚ, convert_to_usd x "$" er = x)
    ∧ (∀ x : ℚ, convert_to_eur x "€" er = x)
    ∧ (∀ c : String, convert_to_usd 0 c er = 0 ∧ convert_to_eur 0 c er = 0)
    ∧ (∀ (x : ℚ) (c : String),
        er.usd_rates.find? (fun p => p.1 = lookupCode c) = none → convert_to_usd x c er = x)
    ∧ (∀ (x : ℚ) (c : String),
        er.eur_rates.find? (fun p => p.1 = lookupCode c) = none → convert_to_eur x c er = x) := by
  refine ⟨?_, ?_, ?_, ?_, ?_⟩
  · intro x
    by_cases hx : x = 0
    · subst hx; simp [convert_to_usd]
    · simp [convert_to_usd, hx, show lookupCode "$" = "USD" from rfl]
  · intro x
    by_cases hx : x = 0
    · subst hx; simp [convert_to_eur]
    · simp [convert_to_eur, hx, show lookupCode "€" = "EUR" from rfl]
  · intro c
    constructor <;> simp [convert_to_usd, convert_to_eur]
  · intro x c hfind
    by_cases hx : x = 0
    · subst hx; simp [convert_to_usd]
    · simp only [convert_to_usd, if_neg hx]
      by_cases hc : lookupCode c = "USD"
      · rw [if_pos hc]
      · rw [if_neg hc, rateLookup, hfind]
        simp
  · intro x c hfind
    by_cases hx : x = 0
    · subst hx; simp [convert_to_eur]
    · simp only [convert_to_eur, if_neg hx]
      by_cases hc : lookupCode c = "EUR"
      · rw [if_pos hc]
      · rw [if_neg hc, rateLookup, hfind]
        simp

/-- C6 witness: the converter properties at concrete amounts, with a small
concrete rate table and the unknown code XYZ. -/
theorem c6_witness :
    convert_to_usd 100 "$" ⟨[("EUR", 11 / 10)], [("USD", 9 / 10)]⟩ = 100
    ∧ convert_to_eur 100 "€" ⟨[("EUR", 11 / 10)], [("USD", 9 / 10)]⟩ = 100
    ∧ convert_to_usd 0 "RON" ⟨[("EUR", 11 / 10)], [("USD", 9 / 10)]⟩ = 0
    ∧ convert_to_eur 0 "RON" ⟨[("EUR", 11 / 10)], [("USD", 9 / 10)]⟩ = 0
    ∧ convert_to_usd 250 "XYZ" ⟨[("EUR", 11 / 10)], [("USD", 9 / 10)]⟩ = 250
    ∧ convert_to_eur 250 "XYZ" ⟨[("EUR", 11 / 10)], [("USD", 9 / 10)]⟩ = 250 :=
  ⟨(c6_currency _).1 100, (c6_currency _).2.1 100,
   ((c6_currency _).2.2.1 "RON").1, ((c6_currency _).2.2.1 "RON").2,
   (c6_currency _).2.2.2.1 250 "XYZ" (by rfl),
   (c6_currency _).2.2.2.2 250 "XYZ" (by rfl)⟩

/- ### Claim C7 -/

theorem gainLossList_all_pos (pf : String → Option ℚ) :
    ∀ hs : List PerfHolding, (∀ x ∈ hs, 0 < x.weighted_avg_cost) →
      gainLossList pf hs
        = hs.map (fun x => (resolvedPrice pf x - x.weighted_avg_cost) / x.weighted_avg_cost) := by
  intro hs
  induction hs with
  | nil => intro _; rfl
  | cons a l ih =>
    intro h
    have ha := h a (List.mem_cons_self a l)
    have hl : ∀ x ∈ l, 0 < x.weighted_avg_cost := fun x hx => h x (List.mem_cons_of_mem a hx)
    have hstep : gainLossList pf (a :: l)
        = ((resolvedPrice pf a - a.weighted_avg_cost) / a.weighted_avg_cost)
            :: gainLossList pf l := by
      simp only [gainLossList, List.filterMap_cons, if_pos ha]
    rw [hstep, List.map_cons, ih hl]

theorem monthlyReturnsAux_length :
    ∀ (l : List ℚ) (prev : Option ℚ), (monthlyReturnsAux prev l).length = l.length := by
  intro l
  induction l with
  | nil => intro prev; rfl
  | cons a rest ih =>
    intro prev
    have hstep : monthlyReturnsAux prev (a :: rest)
        = (match prev with | none => a | some p => a - p) :: monthlyReturnsAux (some a) rest :=
      rfl
    rw [hstep, List.length_cons, List.length_cons, ih (some a)]

theorem monthlyReturnsAux_getD :
    ∀ (l : List ℚ) (prev : Option ℚ) (i : ℕ), i + 1 < l.length →
      (monthlyReturnsAux prev l).getD (i + 1) 0 = l.getD (i + 1) 0 - l.getD i 0 := by
  intro l
  induction l with
  | nil => intro prev i h; simp at h
  | cons a rest ih =>
    intro prev i h
    have hstep : monthlyReturnsAux prev (a :: rest)
        = (match prev with | none => a | some p => a - p) :: monthlyReturnsAux (some a) rest :=
      rfl
    rw [hstep, List.getD_cons_succ]
    cases i with
    | zero =>
      cases rest with
      | nil => simp at h
      | cons b rest2 =>
        have hstep2 : monthlyReturnsAux (some a) (b :: rest2)
            = (b - a) :: monthlyReturnsAux (some b) rest2 := rfl
        rw [hstep2]
        simp
    | succ j =>
      rw [ih (some a) j (by simpa using h), List.getD_cons_succ, List.getD_cons_succ]

/-- C7: `avg_pct_gain_loss` is the unweighted arithmetic mean of the
per-holding ratio `(current_price - avg_cost)/avg_cost` over the held symbols
(all of positive average cost), and the monthly return series takes the first
month's average itself and thereafter the difference of consecutive monthly
averages. -/
theorem c7_performance :
    (∀ (pf : String → Option ℚ) (hs : List PerfHolding),
        (∀ x ∈ hs, 0 < x.weighted_avg_cost) → hs ≠ [] →
        avg_pct_gain_loss pf hs
          = (hs.map (fun x => (resolvedPrice pf x - x.weighted_avg_cost)
              / x.weighted_avg_cost)).sum / (hs.length : ℚ))
    ∧ (∀ avgs : List ℚ, (monthlyReturns avgs).length = avgs.length)
    ∧ (∀ (a : ℚ) (rest : List ℚ), (monthlyReturns (a :: rest)).getD 0 0 = a)
    ∧ (∀ (avgs : List ℚ) (i : ℕ), i + 1 < avgs.length →
        (monthlyReturns avgs).getD (i + 1) 0 = avgs.getD (i + 1) 0 - avgs.getD i 0) := by
  refine ⟨?_, ?_, ?_, ?_⟩
  · intro pf hs hpos hne
    have hmap : ¬ (hs.map (fun x => (resolvedPrice pf x - x.weighted_avg_cost)
        / x.weighted_avg_cost) = []) := by
      intro hm
      exact hne (List.map_eq_nil_iff.mp hm)
    simp only [avg_pct_gain_loss, gainLossList_all_pos pf hs hpos, if_neg hmap,
      List.length_map]
  · intro avgs
    rw [monthlyReturns, monthlyReturnsAux_length]
  · intro a rest
    rfl
  · intro avgs i h
    rw [monthlyReturns, monthlyReturnsAux_getD avgs none i h]

/-- C7 witness: one held symbol with no live price (cost fallback) and the
two-month series [3, 5]. -/
theorem c7_witness :
    avg_pct_gain_loss (fun _ => none) [⟨"A", 2, 4, "$"⟩]
        = (([⟨"A", 2, 4, "$"⟩] : List PerfHolding).map
            (fun x => (resolvedPrice (fun _ => none) x - x.weighted_avg_cost)
              / x.weighted_avg_cost)).sum
          / ((([⟨"A", 2, 4, "$"⟩] : List PerfHolding).length : ℕ) : ℚ)
    ∧ (monthlyReturns [(3 : ℚ), 5]).length = ([(3 : ℚ), 5]).length
    ∧ (monthlyReturns ((3 : ℚ) :: [5])).getD 0 0 = 3
    ∧ (monthlyReturns [(3 : ℚ), 5]).getD 1 0 = ([(3 : ℚ), 5]).getD 1 0 - ([(3 : ℚ), 5]).getD 0 0 :=
  ⟨c7_performance.1 (fun _ => none) [⟨"A", 2, 4, "$"⟩]
      (by intro x hx; fin_cases hx; norm_num) (by simp),
   c7_performance.2.1 [3, 5],
   c7_performance.2.2.1 3 [5],
   c7_performance.2.2.2 [3, 5] 0 (by norm_num)⟩

/- ### Claim C8 -/

theorem cumulativeAux_length :
    ∀ (rs : List ℚ) (f : ℚ), (cumulativeAux f rs).length = rs.length := by
  intro rs
  induction rs with
  | nil => intro f; rfl
  | cons r rest ih =>
    intro f
    rw [cumulativeAux, List.length_cons, List.length_cons, ih (f * (1 + r))]

theorem cumulativeAux_getD :
    ∀ (rs : List ℚ) (f : ℚ) (n : ℕ), n < rs.length →
      (cumulativeAux f rs).getD n 0 = f * ((rs.take (n + 1)).map (fun r => 1 + r)).prod - 1 := by
  intro rs
  induction rs with
  | nil => intro f n h; simp at h
  | cons r rest ih =>
    intro f n h
    rw [cumulativeAux]
    cases n with
    | zero =>
      rw [List.getD_cons_zero, List.take_succ_cons, List.take_zero, List.map_cons,
        List.map_nil, List.prod_cons, List.prod_nil]
      ring
    | succ m =>
      rw [List.getD_cons_succ, ih (f * (1 + r)) m (by simpa using h),
        List.take_succ_cons, List.map_cons, List.prod_cons]
      ring

theorem zipWith_sub_getD :
    ∀ (l1 l2 : List ℚ) (m : ℕ), m < l1.length → m < l2.length →
      (List.zipWith (fun a b => a - b) l1 l2).getD m 0 = l1.getD m 0 - l2.getD m 0 := by
  intro l1
  induction l1 with
  | nil => intro l2 m h1 _; simp at h1
  | cons a l1 ih =>
    intro l2 m h1 h2
    cases l2 with
    | nil => simp at h2
    | cons b l2 =>
      rw [List.zipWith_cons_cons]
      cases m with
      | zero => simp
      | succ k =>
        rw [List.getD_cons_succ, List.getD_cons_succ, List.getD_cons_succ]
        exact ih l2 k (by simpa using h1) (by simpa using h2)

/-- C8: the cumulative-return column compounds multiplicatively —
`cumulative[m] = Π (1 + r_i) over i ≤ m, minus 1` for every month index, so
`cumulative[0] = r_0` — the benchmark column compounds the same way from its
own returns, and `alpha[m]` is the pointwise difference of the two cumulative
columns. -/
theorem c8_compounding :
    (∀ (rs : List ℚ) (n : ℕ), n < rs.length →
        (cumulativeReturns rs).getD n 0 = ((rs.take (n + 1)).map (fun r => 1 + r)).prod - 1)
    ∧ (∀ (r : ℚ) (rest : List ℚ), (cumulativeReturns (r :: rest)).getD 0 0 = r)
    ∧ (∀ (port bench : List ℚ) (m : ℕ), m < port.length → m < bench.length →
        (alphaSeries port bench).getD m 0
          = (cumulativeReturns port).getD m 0 - (cumulativeReturns bench).getD m 0) := by
  refine ⟨?_, ?_, ?_⟩
  · intro rs n h
    rw [cumulativeReturns, cumulativeAux_getD rs 1 n h, one_mul]
  · intro r rest
    rw [cumulativeReturns, cumulativeAux, List.getD_cons_zero]
    ring
  · intro port bench m h1 h2
    rw [alphaSeries]
    refine zipWith_sub_getD _ _ m ?_ ?_
    · rw [cumulativeReturns, cumulativeAux_length port 1]; exact h1
    · rw [cumulativeReturns, cumulativeAux_length bench 1]; exact h2

/-- C8 witness: the compounding identities on the concrete two-month series
10% then 25% against a benchmark of 5% then 12.5%. -/
theorem c8_witness :
    (cumulativeReturns [(1 : ℚ) / 10, 1 / 4]).getD 1 0
        = ((([(1 : ℚ) / 10, 1 / 4]).take 2).map (fun r => 1 + r)).prod - 1
    ∧ (cumulativeReturns ((1 : ℚ) / 10 :: [1 / 4])).getD 0 0 = 1 / 10
    ∧ (alphaSeries [(1 : ℚ) / 10, 1 / 4] [(1 : ℚ) / 20, 1 / 8]).getD 1 0
        = (cumulativeReturns [(1 : ℚ) / 10, 1 / 4]).getD 1 0
          - (cumulativeReturns [(1 : ℚ) / 20, 1 / 8]).getD 1 0 :=
  ⟨c8_compounding.1 [(1 : ℚ) / 10, 1 / 4] 1 (by norm_num),
   c8_compounding.2.1 ((1 : ℚ) / 10) [1 / 4],
   c8_compounding.2.2 [(1 : ℚ) / 10, 1 / 4] [(1 : ℚ) / 20, 1 / 8] 1 (by norm_num) (by norm_num)⟩

/- ### Claim C9 -/

/-- C9: when no current price is available for the record's symbol, every
`current_*`, `unrealized_*` and `opportunity_difference` field is `None`
(never zeroed); when a price is available,
`opportunity_difference = unrealized_pnl - realized_pnl` with
`unrealized_pnl = shares_sold * price - fees - total_cost_basis`. -/
theorem c9_unrealized (r : SellRecord) (prices : String → Option ℚ) :
    (prices r.symbol = none →
      calculate_unrealized_pnl r prices = ⟨none, none, none, none, none, none⟩)
    ∧ (∀ cp : ℚ, prices r.symbol = some cp →
        (calculate_unrealized_pnl r prices).unrealized_pnl
            = some (r.shares_sold * cp - r.fees - r.total_cost_basis)
          ∧ (calculate_unrealized_pnl r prices).opportunity_difference
            = some ((r.shares_sold * cp - r.fees - r.total_cost_basis) - r.realized_pnl)) := by
  constructor
  · intro h
    simp only [calculate_unrealized_pnl, h]
  · intro cp h
    simp only [calculate_unrealized_pnl, h]
    exact ⟨trivial, trivial⟩

/-- C9 witness: the scenario's record with no available price (all fields
unset) and with price 200 (opportunity difference = unrealized − realized). -/
theorem c9_witness :
    calculate_unrealized_pnl c9rec (fun _ => none) = ⟨none, none, none, none, none, none⟩
    ∧ (calculate_unrealized_pnl c9rec (fun _ => some 200)).unrealized_pnl
        = some (c9rec.shares_sold * 200 - c9rec.fees - c9rec.total_cost_basis)
    ∧ (calculate_unrealized_pnl c9rec (fun _ => some 200)).opportunity_difference
        = some ((c9rec.shares_sold * 200 - c9rec.fees - c9rec.total_cost_basis)
            - c9rec.realized_pnl) :=
  ⟨(c9_unrealized c9rec (fun _ => none)).1 rfl,
   ((c9_unrealized c9rec (fun _ => some 200)).2 200 rfl).1,
   ((c9_unrealized c9rec (fun _ => some 200)).2 200 rfl).2⟩

/- ### Claim C10 -/

theorem sp500Return_none_cur (prev : Option ℚ) : sp500Return prev none = 0 := by
  cases prev <;> rfl

theorem benchAux_length :
    ∀ (ps : List (Option ℚ)) (prev : Option ℚ), (benchAux prev ps).length = ps.length := by
  intro ps
  induction ps with
  | nil => intro prev; rfl
  | cons c rest ih =>
    intro prev
    rw [benchAux, List.length_cons, List.length_cons, ih (newPrev prev c)]

theorem benchAux_getD_none :
    ∀ (ps : List (Option ℚ)) (prev : Option ℚ) (i : ℕ),
      i < ps.length → ps.getD i none = none → (benchAux prev ps).getD i 0 = 0 := by
  intro ps
  induction ps with
  | nil => intro prev i h _; simp at h
  | cons c rest ih =>
    intro prev i h hc
    rw [benchAux]
    cases i with
    | zero =>
      rw [List.getD_cons_zero] at hc
      rw [List.getD_cons_zero, hc, sp500Return_none_cur]
    | succ j =>
      rw [List.getD_cons_succ] at hc
      rw [List.getD_cons_succ]
      exact ih (newPrev prev c) j (by simpa using h) hc

theorem take_succ_getD {α : Type} :
    ∀ (l : List α) (i : ℕ) (d : α), i < l.length →
      l.take (i + 1) = l.take i ++ [l.getD i d] := by
  intro l
  induction l with
  | nil => intro i d h; simp at h
  | cons a rest ih =>
    intro i d h
    cases i with
    | zero =>
      rw [List.getD_cons_zero, List.take_succ_cons, List.take_zero, List.take_zero]
      rfl
    | succ j =>
      rw [List.take_succ_cons, List.take_succ_cons, List.getD_cons_succ,
        ih j d (by simpa using h)]
      rfl

/-- C10: the benchmark monthly return is 0 for the first month (no previous
close) and 0 for any month whose benchmark price lookup returns no data; on
such a month the carried `previous_sp500_price` baseline is unchanged, and
the month contributes a factor of exactly 1 to the benchmark's cumulative
compounding product. -/
theorem c10_benchmark :
    (∀ (c : Option ℚ) (rest : List (Option ℚ)), (benchmarkReturns (c :: rest)).getD 0 0 = 0)
    ∧ (∀ (ps : List (Option ℚ)) (i : ℕ), i < ps.length → ps.getD i none = none →
        (benchmarkReturns ps).getD i 0 = 0
        ∧ prevState (ps.take (i + 1)) = prevState (ps.take i)
        ∧ (((benchmarkReturns ps).take (i + 1)).map (fun r => 1 + r)).prod
            = (((benchmarkReturns ps).take i).map (fun r => 1 + r)).prod) := by
  constructor
  · intro c rest
    rw [benchmarkReturns, benchAux, List.getD_cons_zero]
    cases c <;> rfl
  · intro ps i h hc
    have h0 : (benchmarkReturns ps).getD i 0 = 0 := benchAux_getD_none ps none i h hc
    refine ⟨h0, ?_, ?_⟩
    · rw [prevState, prevState, take_succ_getD ps i none h, hc, List.foldl_append]
      rfl
    · have hlen : i < (benchmarkReturns ps).length := by
        rw [benchmarkReturns, benchAux_length ps none]; exact h
      rw [take_succ_getD (benchmarkReturns ps) i 0 hlen, h0, List.map_append,
        List.prod_append]
      simp

/-- C10 witness: prices 100, missing, 110 — the first and the missing months
return 0, the baseline is carried across the missing month, and the missing
month multiplies the compounding product by exactly 1. -/
theorem c10_witness :
    (benchmarkReturns (some (100 : ℚ) :: [none, some 110])).getD 0 0 = 0
    ∧ (benchmarkReturns [some (100 : ℚ), none, some 110]).getD 1 0 = 0
    ∧ prevState (([some (100 : ℚ), none, some 110]).take 2)
        = prevState (([some (100 : ℚ), none, some 110]).take 1)
    ∧ (((benchmarkReturns [some (100 : ℚ), none, some 110]).take 2).map
          (fun r => 1 + r)).prod
        = (((benchmarkReturns [some (100 : ℚ), none, some 110]).take 1).map
            (fun r => 1 + r)).prod :=
  ⟨c10_benchmark.1 (some 100) [none, some 110],
   (c10_benchmark.2 [some (100 : ℚ), none, some 110] 1 (by norm_num) rfl).1,
   (c10_benchmark.2 [some (100 : ℚ), none, some 110] 1 (by norm_num) rfl).2.1,
   (c10_benchmark.2 [some (100 : ℚ), none, some 110] 1 (by norm_num) rfl).2.2⟩

end InvestmentTracker
